import Mathlib

/-!
Verification of the fuzzy medication-matching engine of `medicine_box_reader.py`.

The core pipeline (`match_medications_fuzzy`, lines 106-122 of the source) is:
`tokens = text.lower().split()`, then for each token a best-match lookup
(`rapidfuzz.process.extractOne`) against the medication list, accepting the
candidate when `score >= threshold` and collecting accepted names into a set.

The similarity scorer lives in the third-party `rapidfuzz` library, so the
engine is embedded generically over a scorer `String → String → ℚ`; the
best-match lookup `extractOne` is modelled from the spec's pinned contract
(highest score wins, lowest construction-order index on ties), which is also
the documented behavior of the library call the source makes.
-/

namespace MedTalk

/-- Normalization as performed by the source (line 113): `text.lower()`.
Lower-cases every character and nothing else.  Modelled character-wise with
`Char.toLower`, which is faithful on the ASCII range; Python's `str.lower()`
additionally lowers non-ASCII letters and may map one character to several
(so it can grow, never shrink, a string) — no theorem below relies on the
length being preserved, only on no character being removed. -/
def normalize (text : String) : String := ⟨text.data.map Char.toLower⟩

/-- Emit the word accumulated (in reverse) while scanning, or nothing when no
word characters were seen since the last whitespace. -/
def emitTok (acc : List Char) : List String :=
  if acc = [] then [] else [⟨acc.reverse⟩]

/-- Scanner behind `pySplit`: `acc` holds the current word's characters in
reverse; whitespace ends the current word, everything else extends it. -/
def pySplitAux (acc : List Char) : List Char → List String
  | [] => emitTok acc
  | c :: cs =>
      if c.isWhitespace then emitTok acc ++ pySplitAux [] cs
      else pySplitAux (c :: acc) cs

/-- Python's `str.split()` with no separator: split on whitespace runs,
dropping empty fragments (so leading, trailing and repeated whitespace
produce no tokens). -/
def pySplit (s : String) : List String := pySplitAux [] s.data

/-- The token sequence of an input text, per source line 113:
`text.lower().split()`. -/
def tokensOf (text : String) : List String := pySplit (normalize text)

/-- `load_medication_list` (source lines 94-104): given the `Molecule` column
of the CSV, lower-case every entry.  The source performs no validation of
emptiness or duplicates. -/
def load_medication_list (molecules : List String) : List String :=
  molecules.map normalize

/-- Scan of the remaining choices keeping the current best; the best is
replaced only when a later choice scores strictly higher, so the earliest
maximal choice wins. -/
def extractOneAux (score : String → String → ℚ) (q : String)
    (best : String × ℚ) : List String → String × ℚ
  | [] => best
  | m :: rest =>
      if best.2 < score q m then extractOneAux score q (m, score q m) rest
      else extractOneAux score q best rest

/-- Modelled from the spec: `rapidfuzz.process.extractOne` (called at source
line 117) is third-party code not present in the repository.  Per the spec's
pinned contract (§4.3) it returns the single highest-scoring record, and when
two or more records achieve the identical maximum score the record with the
lowest construction-order index wins; `none` is returned for an empty choice
list. -/
def extractOne (score : String → String → ℚ) (q : String) :
    List String → Option (String × ℚ)
  | [] => none
  | m :: rest => some (extractOneAux score q (m, score q m) rest)

/-- The matching loop of source lines 116-121 on an explicit token list:
for each token take the best match and accept it into the recognized set
when its score reaches the threshold. -/
def matchTokens (score : String → String → ℚ) (toks : List String)
    (medication_list : List String) (threshold : ℚ) : Finset String :=
  toks.foldr
    (fun token acc =>
      match extractOne score token medication_list with
      | some (m, sc) => if threshold ≤ sc then insert m acc else acc
      | none => acc)
    ∅

/-- `match_medications_fuzzy` (source lines 106-122): tokenize the lowered
text and run the matching loop, returning the set of recognized names. -/
def match_medications_fuzzy (score : String → String → ℚ) (text : String)
    (medication_list : List String) (threshold : ℚ) : Finset String :=
  matchTokens score (tokensOf text) medication_list threshold

/-- A concrete similarity scorer satisfying the spec's scorer contract
(§4.4): identical strings score 100, others 0.  Used to instantiate the
generic theorems at concrete inputs. -/
def exactScorer (a b : String) : ℚ := if a = b then 100 else 0

example : pySplit "" = [] := by decide
example : tokensOf "  Hello   WORLD  " = ["hello", "world"] := by decide
example : (85 : ℚ) ≤ 100 := by decide
example : extractOne exactScorer "a" ["b", "a"] = some ("a", 100) := by decide
example : match_medications_fuzzy exactScorer "Aspirin" ["aspirin"] 85 =
    {"aspirin"} := by decide
example : match_medications_fuzzy exactScorer "" ["aspirin"] 85 = ∅ := by decide

/-! ### Structural lemmas about the matching loop -/

lemma matchTokens_nil (s : String → String → ℚ) (meds : List String) (thr : ℚ) :
    matchTokens s [] meds thr = ∅ := rfl

lemma matchTokens_cons (s : String → String → ℚ) (t : String) (ts : List String)
    (meds : List String) (thr : ℚ) :
    matchTokens s (t :: ts) meds thr =
      match extractOne s t meds with
      | some (m, sc) =>
          if thr ≤ sc then insert m (matchTokens s ts meds thr)
          else matchTokens s ts meds thr
      | none => matchTokens s ts meds thr := rfl

/-- A name is recognized exactly when some token's best match is that name
with a score reaching the threshold. -/
lemma mem_matchTokens (s : String → String → ℚ) (toks meds : List String)
    (thr : ℚ) (m : String) :
    m ∈ matchTokens s toks meds thr ↔
      ∃ t ∈ toks, ∃ sc : ℚ, extractOne s t meds = some (m, sc) ∧ thr ≤ sc := by
  induction toks with
  | nil => simp [matchTokens_nil]
  | cons t ts ih =>
    rw [matchTokens_cons]
    rcases hE : extractOne s t meds with _ | ⟨m', sc'⟩
    · simp only [List.mem_cons]
      constructor
      · intro hm
        obtain ⟨u, hu, sc, hsc⟩ := ih.mp hm
        exact ⟨u, Or.inr hu, sc, hsc⟩
      · rintro ⟨u, rfl | hu, sc, hsc, hthr⟩
        · rw [hE] at hsc; cases hsc
        · exact ih.mpr ⟨u, hu, sc, hsc, hthr⟩
    · by_cases hthr : thr ≤ sc'
      · simp only [if_pos hthr, Finset.mem_insert, List.mem_cons]
        constructor
        · rintro (rfl | hm)
          · exact ⟨t, Or.inl rfl, sc', hE, hthr⟩
          · obtain ⟨u, hu, sc, hsc⟩ := ih.mp hm
            exact ⟨u, Or.inr hu, sc, hsc⟩
        · rintro ⟨u, rfl | hu, sc, hsc, hthr2⟩
          · rw [hE] at hsc
            simp only [Option.some.injEq, Prod.mk.injEq] at hsc
            exact Or.inl hsc.1.symm
          · exact Or.inr (ih.mpr ⟨u, hu, sc, hsc, hthr2⟩)
      · simp only [if_neg hthr, List.mem_cons]
        constructor
        · intro hm
          obtain ⟨u, hu, sc, hsc⟩ := ih.mp hm
          exact ⟨u, Or.inr hu, sc, hsc⟩
        · rintro ⟨u, rfl | hu, sc, hsc, hthr2⟩
          · rw [hE] at hsc
            simp only [Option.some.injEq, Prod.mk.injEq] at hsc
            rw [hsc.2] at hthr
            exact absurd hthr2 hthr
          · exact ih.mpr ⟨u, hu, sc, hsc, hthr2⟩

lemma matchTokens_append (s : String → String → ℚ) (a b meds : List String)
    (thr : ℚ) :
    matchTokens s (a ++ b) meds thr =
      matchTokens s a meds thr ∪ matchTokens s b meds thr := by
  induction a with
  | nil => simp [matchTokens_nil]
  | cons t ts ih =>
    rw [List.cons_append, matchTokens_cons, matchTokens_cons, ih]
    rcases extractOne s t meds with _ | ⟨m, sc⟩
    · rfl
    · by_cases hthr : thr ≤ sc
      · simp [if_pos hthr, Finset.insert_union]
      · simp [if_neg hthr]

lemma matchTokens_nil_meds (s : String → String → ℚ) (toks : List String)
    (thr : ℚ) : matchTokens s toks [] thr = ∅ := by
  induction toks with
  | nil => rfl
  | cons t ts ih => rw [matchTokens_cons]; exact ih

lemma tokensOf_empty : tokensOf "" = [] := rfl

/-! ### Characterization of the best-match lookup -/

/-- The scan either keeps the incumbent (when nothing beats it strictly) or
returns the earliest list element that strictly beats the incumbent and is
strictly above every element before it and at least every element of the
list. -/
lemma extractOneAux_spec (s : String → String → ℚ) (q : String)
    (l : List String) : ∀ b : String × ℚ,
    (extractOneAux s q b l = b ∧ ∀ x ∈ l, s q x ≤ b.2) ∨
    (∃ i, ∃ hi : i < l.length,
      extractOneAux s q b l = (l.get ⟨i, hi⟩, s q (l.get ⟨i, hi⟩)) ∧
      b.2 < s q (l.get ⟨i, hi⟩) ∧
      (∀ j, ∀ hj : j < l.length, j < i →
        s q (l.get ⟨j, hj⟩) < s q (l.get ⟨i, hi⟩)) ∧
      (∀ x ∈ l, s q x ≤ s q (l.get ⟨i, hi⟩))) := by
  induction l with
  | nil => intro b; exact Or.inl ⟨rfl, by simp⟩
  | cons m rest ih =>
    intro b
    by_cases hcmp : b.2 < s q m
    · rw [show extractOneAux s q b (m :: rest) =
          extractOneAux s q (m, s q m) rest by
        simp [extractOneAux, if_pos hcmp]]
      rcases ih (m, s q m) with ⟨heq, hle⟩ | ⟨i, hi, heq, hlt, hstrict, hle⟩
      · refine Or.inr ⟨0, Nat.succ_pos _, heq, hcmp, ?_, ?_⟩
        · intro j hj hj0; omega
        · intro x hx
          rcases List.mem_cons.mp hx with rfl | hx
          · exact le_refl _
          · exact hle x hx
      · refine Or.inr ⟨i + 1, Nat.succ_lt_succ hi, heq, ?_, ?_, ?_⟩
        · exact lt_trans hcmp hlt
        · intro j hj hji
          match j, hj with
          | 0, _ => exact hlt
          | j' + 1, hj =>
            exact hstrict j' (Nat.lt_of_succ_lt_succ hj)
              (Nat.lt_of_succ_lt_succ hji)
        · intro x hx
          rcases List.mem_cons.mp hx with rfl | hx
          · exact le_of_lt hlt
          · exact hle x hx
    · rw [show extractOneAux s q b (m :: rest) = extractOneAux s q b rest by
        simp [extractOneAux, if_neg hcmp]]
      rcases ih b with ⟨heq, hle⟩ | ⟨i, hi, heq, hlt, hstrict, hle⟩
      · refine Or.inl ⟨heq, ?_⟩
        intro x hx
        rcases List.mem_cons.mp hx with rfl | hx
        · exact le_of_not_lt hcmp
        · exact hle x hx
      · refine Or.inr ⟨i + 1, Nat.succ_lt_succ hi, heq, hlt, ?_, ?_⟩
        · intro j hj hji
          match j, hj with
          | 0, _ => exact lt_of_le_of_lt (le_of_not_lt hcmp) hlt
          | j' + 1, hj =>
            exact hstrict j' (Nat.lt_of_succ_lt_succ hj)
              (Nat.lt_of_succ_lt_succ hji)
        · intro x hx
          rcases List.mem_cons.mp hx with rfl | hx
          · exact le_of_lt (lt_of_le_of_lt (le_of_not_lt hcmp) hlt)
          · exact hle x hx

/-- The best-match lookup returns a record of the list together with its
score, that score is maximal over the list, and the returned record sits at
the lowest index achieving that score. -/
lemma extractOne_spec (s : String → String → ℚ) (q : String)
    (l : List String) (m : String) (sc : ℚ)
    (h : extractOne s q l = some (m, sc)) :
    ∃ i, ∃ hi : i < l.length, l.get ⟨i, hi⟩ = m ∧ s q m = sc ∧
      (∀ x ∈ l, s q x ≤ sc) ∧
      (∀ j, ∀ hj : j < l.length, s q (l.get ⟨j, hj⟩) = sc → i ≤ j) := by
  match l with
  | [] => cases h
  | hd :: tl =>
    have hE : extractOneAux s q (hd, s q hd) tl = (m, sc) := by
      rw [extractOne] at h
      exact Option.some.injEq .. ▸ h
    rcases extractOneAux_spec s q tl (hd, s q hd) with
      ⟨heq, hle⟩ | ⟨i, hi, heq, hlt, hstrict, hle⟩
    · rw [heq] at hE
      obtain ⟨rfl, hsc⟩ : hd = m ∧ s q hd = sc := Prod.mk.injEq .. ▸ hE
      refine ⟨0, Nat.succ_pos _, rfl, hsc, ?_, ?_⟩
      · intro x hx
        rcases List.mem_cons.mp hx with rfl | hx
        · exact le_of_eq hsc
        · exact hsc ▸ hle x hx
      · intro j hj _; exact Nat.zero_le j
    · rw [heq] at hE
      obtain ⟨hm, hsc⟩ : tl.get ⟨i, hi⟩ = m ∧ s q (tl.get ⟨i, hi⟩) = sc :=
        Prod.mk.injEq .. ▸ hE
      refine ⟨i + 1, Nat.succ_lt_succ hi, hm, hm ▸ hsc, ?_, ?_⟩
      · intro x hx
        rcases List.mem_cons.mp hx with rfl | hx
        · exact le_of_lt (hsc ▸ hlt)
        · exact hsc ▸ hle x hx
      · intro j hj hscj
        by_contra hji
        have hji2 : j < i + 1 := Nat.lt_of_not_le fun hle2 => hji hle2
        match j, hj, hscj, hji2 with
        | 0, _, hscj, _ =>
          exact absurd hscj (ne_of_lt (hsc ▸ hlt))
        | j' + 1, hj, hscj, hji2 =>
          exact absurd hscj
            (ne_of_lt (hsc ▸ hstrict j' (Nat.lt_of_succ_lt_succ hj)
              (Nat.lt_of_succ_lt_succ hji2)))

/-- Whatever the best-match lookup returns is an element of the choice list,
paired with its own score. -/
lemma extractOne_mem (s : String → String → ℚ) (q : String)
    (l : List String) (m : String) (sc : ℚ)
    (h : extractOne s q l = some (m, sc)) : m ∈ l ∧ s q m = sc := by
  obtain ⟨i, hi, hm, hsc, -, -⟩ := extractOne_spec s q l m sc h
  exact ⟨hm ▸ List.get_mem l i hi, hsc⟩

/-! ### Tokenization produces no empty tokens -/

lemma emitTok_ne_empty (acc : List Char) : "" ∉ emitTok acc := by
  rw [emitTok]
  by_cases hacc : acc = []
  · simp [if_pos hacc]
  · simp only [if_neg hacc, List.mem_singleton]
    intro h
    apply hacc
    have hdata : acc.reverse = [] := congrArg String.data h.symm
    simpa using hdata

lemma pySplitAux_ne_empty (cs : List Char) : ∀ acc, "" ∉ pySplitAux acc cs := by
  induction cs with
  | nil => intro acc; exact emitTok_ne_empty acc
  | cons c cs ih =>
    intro acc
    rw [pySplitAux]
    by_cases hws : c.isWhitespace
    · simp only [if_pos hws, List.mem_append]
      rintro (h | h)
      · exact emitTok_ne_empty acc h
      · exact ih [] h
    · simp only [if_neg hws]
      exact ih (c :: acc)

lemma empty_not_mem_tokensOf (text : String) : "" ∉ tokensOf text :=
  pySplitAux_ne_empty (normalize text).data []

/-! ### The claims -/

/-- Claim C1: for every token sequence, reference list and threshold in
[0,100], a token whose best-match candidate scores exactly the threshold is
accepted into the recognized set, and a candidate scoring strictly below the
threshold produces no entry. -/
theorem c1_threshold_boundary (s : String → String → ℚ)
    (toks meds : List String) (thr : ℚ) (h0 : 0 ≤ thr) (h1 : thr ≤ 100)
    (t m : String) (sc : ℚ) (ht : t ∈ toks)
    (hbest : extractOne s t meds = some (m, sc)) :
    (sc = thr → m ∈ matchTokens s toks meds thr) ∧
    (sc < thr → matchTokens s [t] meds thr = ∅) := by
  constructor
  · intro hsc
    exact (mem_matchTokens s toks meds thr m).mpr
      ⟨t, ht, sc, hbest, le_of_eq hsc.symm⟩
  · intro hsc
    rw [matchTokens_cons, hbest]
    show (if thr ≤ sc then insert m (matchTokens s [] meds thr)
      else matchTokens s [] meds thr) = ∅
    rw [if_neg (not_le.mpr hsc)]
    rfl

/-- Witness for C1 at a concrete boundary instance: score 100 equals the
threshold 100 and the candidate is accepted. -/
theorem c1_threshold_boundary_witness :
    ((100 : ℚ) = 100 →
      "aspirin" ∈ matchTokens exactScorer ["aspirin"] ["aspirin"] 100) ∧
    ((100 : ℚ) < 100 →
      matchTokens exactScorer ["aspirin"] ["aspirin"] 100 = ∅) :=
  c1_threshold_boundary exactScorer ["aspirin"] ["aspirin"] 100 (by decide)
    (by decide) "aspirin" "aspirin" 100 (by decide) (by decide)

/-- Claim C2: a token that after normalization equals a reference entry
scores 100 against it, and that entry is the accepted match, so it is
recognized whenever the threshold is at most 100.  The scorer hypotheses are
the spec's scorer contract: identical strings score 100, scores are bounded
by 100, and a perfect score identifies the entry. -/
theorem c2_exact_match_recognized (s : String → String → ℚ)
    (meds : List String) (t : String) (hrefl : s t t = 100)
    (hbound : ∀ x ∈ meds, s t x ≤ 100)
    (hsep : ∀ x ∈ meds, s t x = 100 → x = t) (hmem : t ∈ meds)
    (text : String) (htok : t ∈ tokensOf text) (thr : ℚ)
    (hthr : thr ≤ 100) :
    extractOne s t meds = some (t, 100) ∧
    t ∈ match_medications_fuzzy s text meds thr := by
  have hsome : ∃ m sc, extractOne s t meds = some (m, sc) := by
    match meds, hmem with
    | hd :: tl, _ => exact ⟨_, _, rfl⟩
  obtain ⟨m, sc, hE⟩ := hsome
  obtain ⟨i, hi, -, hscm, hmax, -⟩ := extractOne_spec s t meds m sc hE
  have hmmem : m ∈ meds := (extractOne_mem s t meds m sc hE).1
  have h100le : (100 : ℚ) ≤ sc := hrefl ▸ hmax t hmem
  have hle100 : sc ≤ 100 := hscm ▸ hbound m hmmem
  have hsc100 : sc = 100 := le_antisymm hle100 h100le
  have hmt : m = t := hsep m hmmem (hscm.trans hsc100)
  rw [hmt, hsc100] at hE
  refine ⟨hE, ?_⟩
  exact (mem_matchTokens s (tokensOf text) meds thr t).mpr
    ⟨t, htok, 100, hE, le_trans hthr (le_refl _)⟩

/-- Witness for C2: the token `aspirin` of the text `Aspirin 200mg` equals
the second reference entry and is recognized at threshold 85. -/
theorem c2_exact_match_recognized_witness :
    extractOne exactScorer "aspirin" ["ibuprofen", "aspirin"] =
      some ("aspirin", 100) ∧
    "aspirin" ∈ match_medications_fuzzy exactScorer "Aspirin 200mg"
      ["ibuprofen", "aspirin"] 85 :=
  c2_exact_match_recognized exactScorer ["ibuprofen", "aspirin"] "aspirin"
    (by decide) (by decide) (by decide) (by decide) "Aspirin 200mg"
    (by decide) 85 (by decide)

/-- Claim C3 counterexample: building the reference list from an empty
sequence does not fail — it succeeds with the empty list, matching then runs
against it and returns the empty set — and a sequence with duplicate names is
accepted unchanged; no `ConfigurationError` exists in the code. -/
theorem c3_no_validation_counterexample :
    load_medication_list [] = [] ∧
    match_medications_fuzzy exactScorer "aspirin" (load_medication_list [])
      85 = ∅ ∧
    load_medication_list ["Amoxicillin", "Amoxicillin"] =
      ["amoxicillin", "amoxicillin"] := by decide

/-- Claim C3 as amended: loading performs no validation — it keeps every
record (also duplicates) and only lower-cases; with an empty vocabulary the
pipeline still runs and returns the empty recognized set rather than
failing. -/
theorem c3_build_never_fails (molecules : List String) :
    (load_medication_list molecules).length = molecules.length ∧
    (∀ (s : String → String → ℚ) (text : String) (thr : ℚ),
      match_medications_fuzzy s text (load_medication_list []) thr = ∅) := by
  refine ⟨?_, ?_⟩
  · simp [load_medication_list]
  · intro s text thr
    exact matchTokens_nil_meds s (tokensOf text) thr

/-- Claim C4 counterexample: normalization strips no punctuation — the
comma and exclamation mark survive both normalization and tokenization. -/
theorem c4_punctuation_counterexample :
    normalize "Hello, world!" = "hello, world!" ∧
    normalize "Hello, world!" ≠ "hello world" ∧
    tokensOf "Hello, world!" = ["hello,", "world!"] := by decide

/-- Claim C4 as amended: normalization lower-cases characters and removes
none of them — it never shortens the text, so punctuation is retained rather
than stripped; runs of whitespace are collapsed by the tokenizer, which
never yields an empty token; normalization is a total function and empty
input yields empty output. -/
theorem c4_normalize_lower_only (t : String) :
    t.length ≤ (normalize t).length ∧
    normalize "" = "" ∧
    "" ∉ tokensOf t := by
  refine ⟨?_, rfl, empty_not_mem_tokensOf t⟩
  exact le_of_eq (List.length_map t.data Char.toLower).symm

/-- Claim C5: when the best-match lookup returns a record, that record sits
at an index whose score is maximal over the whole list and which is at most
every index achieving that maximal score — on ties, the lowest
construction-order index wins. -/
theorem c5_tie_break_lowest_index (s : String → String → ℚ) (q : String)
    (l : List String) (m : String) (sc : ℚ)
    (h : extractOne s q l = some (m, sc)) :
    ∃ i, ∃ hi : i < l.length, l.get ⟨i, hi⟩ = m ∧ s q m = sc ∧
      (∀ x ∈ l, s q x ≤ sc) ∧
      (∀ j, ∀ hj : j < l.length, s q (l.get ⟨j, hj⟩) = sc → i ≤ j) :=
  extractOne_spec s q l m sc h

/-- Witness for C5: with two entries tied at score 100 the lookup returns
the first. -/
theorem c5_tie_break_lowest_index_witness :
    ∃ i, ∃ hi : i < (["x", "x"] : List String).length,
      (["x", "x"] : List String).get ⟨i, hi⟩ = "x" ∧
      exactScorer "x" "x" = 100 ∧
      (∀ y ∈ (["x", "x"] : List String), exactScorer "x" y ≤ 100) ∧
      (∀ j, ∀ hj : j < (["x", "x"] : List String).length,
        exactScorer "x" ((["x", "x"] : List String).get ⟨j, hj⟩) = 100 →
          i ≤ j) :=
  c5_tie_break_lowest_index exactScorer "x" ["x", "x"] "x" 100 (by decide)

/-- Claim C6: matching the empty extracted text returns the empty
recognized set for every reference list and threshold; no error is
raised. -/
theorem c6_empty_text_empty_result (s : String → String → ℚ)
    (meds : List String) (thr : ℚ) :
    match_medications_fuzzy s "" meds thr = ∅ := rfl

/-- Claim C7: the recognized result is a set deduplicated by name —
processing a token sequence twice, or a duplicated token, yields the same
set as processing it once, and the concrete duplicated text
`paracetamol paracetamol` yields exactly the one entry `paracetamol`. -/
theorem c7_dedup_idempotent (s : String → String → ℚ)
    (toks meds : List String) (thr : ℚ) (t : String) :
    matchTokens s (toks ++ toks) meds thr = matchTokens s toks meds thr ∧
    matchTokens s [t, t] meds thr = matchTokens s [t] meds thr ∧
    match_medications_fuzzy exactScorer "paracetamol paracetamol"
      ["paracetamol"] 85 = {"paracetamol"} := by
  refine ⟨?_, ?_, by decide⟩
  · rw [matchTokens_append]
    exact Finset.union_self _
  · rw [show ([t, t] : List String) = [t] ++ [t] from rfl, matchTokens_append]
    exact Finset.union_self _

/-- Claim C8: the engine is deterministic — equal scorers, texts, reference
lists and thresholds give equal recognized sets and equal best-match
(tie-break) choices. -/
theorem c8_deterministic (s1 s2 : String → String → ℚ) (t1 t2 : String)
    (l1 l2 : List String) (thr1 thr2 : ℚ) (hs : s1 = s2) (ht : t1 = t2)
    (hl : l1 = l2) (hthr : thr1 = thr2) :
    match_medications_fuzzy s1 t1 l1 thr1 =
      match_medications_fuzzy s2 t2 l2 thr2 ∧
    ∀ q : String, extractOne s1 q l1 = extractOne s2 q l2 := by
  subst hs; subst ht; subst hl; subst hthr
  exact ⟨rfl, fun _ => rfl⟩

/-- Witness for C8 at concrete equal inputs. -/
theorem c8_deterministic_witness :
    match_medications_fuzzy exactScorer "aspirin" ["aspirin"] 85 =
      match_medications_fuzzy exactScorer "aspirin" ["aspirin"] 85 ∧
    extractOne exactScorer "q" ["aspirin"] =
      extractOne exactScorer "q" ["aspirin"] :=
  ⟨(c8_deterministic exactScorer exactScorer "aspirin" "aspirin" ["aspirin"]
      ["aspirin"] 85 85 rfl rfl rfl rfl).1,
    (c8_deterministic exactScorer exactScorer "aspirin" "aspirin" ["aspirin"]
      ["aspirin"] 85 85 rfl rfl rfl rfl).2 "q"⟩

/-- Claim C9: every recognized name is an element of the reference list —
the engine never outputs a name outside the vocabulary. -/
theorem c9_output_in_vocabulary (s : String → String → ℚ) (text : String)
    (meds : List String) (thr : ℚ) (m : String)
    (hm : m ∈ match_medications_fuzzy s text meds thr) : m ∈ meds := by
  obtain ⟨t, -, sc, hE, -⟩ :=
    (mem_matchTokens s (tokensOf text) meds thr m).mp hm
  exact (extractOne_mem s t meds m sc hE).1

/-- Witness for C9: `aspirin` is recognized and is indeed in the
vocabulary. -/
theorem c9_output_in_vocabulary_witness :
    "aspirin" ∈ match_medications_fuzzy exactScorer "aspirin" ["aspirin"]
      85 ∧
    "aspirin" ∈ (["aspirin"] : List String) :=
  ⟨by decide, c9_output_in_vocabulary exactScorer "aspirin" ["aspirin"] 85
    "aspirin" (by decide)⟩

/-- Claim C10: matching against an empty reference list returns the empty
recognized set for every text and threshold, without any error — each
per-token lookup yields no candidate and the token is skipped. -/
theorem c10_empty_vocabulary_empty_result (s : String → String → ℚ)
    (text : String) (thr : ℚ) :
    match_medications_fuzzy s text [] thr = ∅ :=
  matchTokens_nil_meds s (tokensOf text) thr

end MedTalk
